import Mathlib

/-!
# Verification of the `project-mcs` front end (parser)

Shallow embedding of `src/src/parser.rs` (and the error macros of `src/src/main.rs`)
of the `project-mcs` repository.  The parser converts a token stream into a flat
expression buffer in postfix order plus a list of variable-assignment statements.

`main.rs` declares `mod lexer`, but `lexer.rs` is not among the sources; the lexer
is therefore modelled from the spec (§4.1): a lazy token stream with one token of
lookahead.  In the embedding the lexer state is the list of remaining tokens:
`peek` looks at the head without consuming it; `next` consumes the head.
All parser definitions are translated from `parser.rs` itself.
-/

namespace Pmcs

/-- Token kinds.  Modelled from the spec: `lexer.rs` is absent from the sources;
the spec (§3) enumerates the kinds Name, Num, Plus, Minus, Star, Slash, Eq,
Semicolon (end-of-input is the absence of a token). -/
inductive TokenKind where
  | name
  | num
  | plus
  | minus
  | star
  | slash
  | eq
  | semicolon
  deriving DecidableEq, Repr

/-- A token: kind, the exact source substring it was scanned from (`data`), and the
source position the lexer would report for it (`loc`; modelled from the spec, which
says lexical/syntax faults are reported with a source location). -/
structure Token where
  kind : TokenKind
  data : String
  loc : Nat
  deriving DecidableEq, Repr

/-- `OpKind` from parser.rs:10-16 (source constructor order: Sub, Add, Mul, Div). -/
inductive OpKind where
  | sub
  | add
  | mul
  | div
  deriving DecidableEq, Repr

/-- `Expr` from parser.rs:18-23: one node of the flat postfix representation. -/
inductive Expr where
  | var (name : String)
  | num (value : Int)
  | op (kind : OpKind)
  deriving DecidableEq, Repr

/-- `std::ops::Range<usize>`: the half-open range `[start, stop)`
(the Rust field `end` is a Lean keyword, hence `stop`). -/
structure Rng where
  start : Nat
  stop : Nat
  deriving DecidableEq, Repr

/-- `Stmt::VarAssign` from parser.rs:5-8: target name plus the range of its
right-hand side in the shared expression buffer. -/
structure Stmt where
  name : String
  expr : Rng
  deriving DecidableEq, Repr

/-- The fatal conditions the front end can hit.  In the Rust code every one of
them terminates the process (there is no recoverable error value); the embedding
returns them through `Except` instead:
* `numErr`    — `parse_num` failure (parser.rs:51-56), `process::exit(1)` directly;
* `stxErr`    — the `syntax_err!` macro (main.rs:28-35), location and message;
* `lexErr`    — the `lexical_err!` macro (main.rs:19-26);
* `unreachableErr` — the `unreachable!()` arm of `expect_read` (parser.rs:64);
* `todoErr`   — the `todo!(...)` arm of `parse` (parser.rs:42);
* `fuelErr`   — an artifact of the fuel-based embedding of the statement loop,
  proved unreachable for the fuel `parse` supplies (`parseLoop_fuel_sufficient`). -/
inductive Fatal where
  | numErr (src : String)
  | stxErr (loc msg : String)
  | lexErr (loc msg : String)
  | unreachableErr
  | todoErr (msg : String)
  | fuelErr
  deriving DecidableEq, Repr

/-- How the process halts on a given fatal condition: `exitOne` is
`process::exit(1)`; `crash` is an abnormal termination by `panic!`-class
machinery (whose exit status is not 1). -/
inductive HaltMode where
  | exitOne
  | crash
  deriving DecidableEq, Repr

/-- Termination behavior per build configuration (main.rs:11-17):
`exit_failure!` panics under `debug_assertions` and calls `std::process::exit(1)`
otherwise; `parse_num` calls `process::exit(1)` directly in every build;
`unreachable!()`/`todo!()` always panic. -/
def haltMode (debugBuild : Bool) : Fatal → HaltMode
  | .numErr _ => .exitOne
  | .stxErr _ _ => if debugBuild then .crash else .exitOne
  | .lexErr _ _ => if debugBuild then .crash else .exitOne
  | .unreachableErr => .crash
  | .todoErr _ => .crash
  | .fuelErr => .crash

/-- The diagnostic line printed for a fatal condition, following the formats of
main.rs:19-51 and parser.rs:53 (for `numErr` the trailing rendering of the
library `ParseIntError` is omitted). -/
def errMsg : Fatal → String
  | .numErr src => "ERROR: parser: could not parse num `" ++ src ++ "`"
  | .stxErr loc msg => "ERROR:" ++ loc ++ ": SyntaxError: " ++ msg
  | .lexErr loc msg => "ERROR:" ++ loc ++ ": LexicalError: " ++ msg
  | .unreachableErr => "internal error: entered unreachable code"
  | .todoErr msg => "not yet implemented: " ++ msg
  | .fuelErr => "fuel exhausted"

/-- Modelled from the spec (§4.1): `Lexer::next` — consume and return the next
token, or `none` at end of input. -/
def lexNext : List Token → Option (Token × List Token)
  | [] => none
  | t :: rest => some (t, rest)

/-- Modelled from the spec (§4.1): `Lexer::peek` — return the next token without
consuming it. -/
def lexPeek : List Token → Option Token
  | [] => none
  | t :: _ => some t

/-- Modelled from the spec (§4.1): `Lexer::expect_next` — like `next`, but a
SyntaxError-class fault at end of input. -/
def expect_next : List Token → Except Fatal (Token × List Token)
  | [] => .error (.stxErr "EOI" "Unexpected end of input")
  | t :: rest => .ok (t, rest)

/-- Modelled from the spec (§4.1): `Lexer::expect_peek` — like `peek`, but a
SyntaxError-class fault at end of input. -/
def expect_peek : List Token → Except Fatal Token
  | [] => .error (.stxErr "EOI" "Unexpected end of input")
  | t :: _ => .ok t

/-- Modelled from the spec (§4.1): `Lexer::expect_specific_next kind` — consume
the next token; fault with a SyntaxError reporting the unexpected token if its
kind differs from `kind` (used for the mandatory `=` and `;`). -/
def expect_specific_next (k : TokenKind) : List Token → Except Fatal (Token × List Token)
  | [] => .error (.stxErr "EOI" "Unexpected end of input")
  | t :: rest =>
    if t.kind = k then .ok (t, rest)
    else .error (.stxErr (toString t.loc) ("Unexpected " ++ t.data))

/-- Accumulated numeric value of a digit run. -/
def digitsToNat (cs : List Char) : Nat :=
  cs.foldl (fun a c => a * 10 + (c.toNat - 48)) 0

/-- Models Rust `str::parse::<i32>()` on the digit-run lexemes the lexer produces
(a nonempty run of ASCII digits, no sign): the decoded value when it fits in
`i32` (`i32::MAX = 2147483647`), `none` on overflow or on text that is not a
digit run. -/
def i32OfStr (s : String) : Option Int :=
  if !s.data.isEmpty && s.data.all Char.isDigit then
    if digitsToNat s.data ≤ 2147483647 then some (Int.ofNat (digitsToNat s.data))
    else none
  else none

/-- `parse_num` from parser.rs:51-56: decode the literal's source text as `i32`;
on failure report the offending text and `process::exit(1)`. -/
def parse_num (src : String) : Except Fatal Int :=
  match i32OfStr src with
  | some v => .ok v
  | none => .error (.numErr src)

/-- The classification step of `expect_read` (parser.rs:61-65): a Name token is a
`var`, a Num token is a `num` via `parse_num`, anything else is `unreachable!()`. -/
def readOperandTok (tok : Token) : Except Fatal Expr :=
  match tok.kind with
  | .name => .ok (.var tok.data)
  | .num =>
    match parse_num tok.data with
    | .ok v => .ok (.num v)
    | .error e => .error e
  | _ => .error .unreachableErr

/-- `expect_read` from parser.rs:59-66: `expect_next` then classify the token as
an operand expression. -/
def expect_read (toks : List Token) : Except Fatal (Expr × List Token) :=
  match expect_next toks with
  | .error e => .error e
  | .ok (tok, rest) =>
    match readOperandTok tok with
    | .ok e => .ok (e, rest)
    | .error e => .error e

/-- The initial `prev_op` dispatch of `parse_expr` (parser.rs:78-87): the peeked
token kind mapped to an operator; `none` means the expression is a single
operand and the parser returns at once. -/
def initOpKind : TokenKind → Option OpKind
  | .plus => some .add
  | .minus => some .sub
  | .star => some .mul
  | .slash => some .div
  | _ => none

/-- The main loop of `parse_expr` (parser.rs:91-135).  The head of `toks` is the
token `lex.expect_peek()` sees; every branch that calls `lex.next()` continues
with the tail.  `expect_read` of the following operand is inlined as a match on
the tail so that the recursion is structural.  Note the dispatch has arms only
for Plus, Star and Slash: any other kind — Minus included — takes the final arm,
which emits `Op(prev_op)` and returns without consuming the peeked token. -/
def parseExprLoop (expr_buf : List Expr) (prev_op : OpKind) (toks : List Token) :
    Except Fatal (List Expr × List Token) :=
  match toks with
  | [] => .error (.stxErr "EOI" "Unexpected end of input")
  | tok :: rest =>
    match tok.kind with
    | .plus =>
      match rest with
      | [] => .error (.stxErr "EOI" "Unexpected end of input")
      | t2 :: rest2 =>
        match readOperandTok t2 with
        | .error e => .error e
        | .ok e2 => parseExprLoop (expr_buf ++ [.op prev_op, e2]) .add rest2
    | .star =>
      if prev_op ≠ .div then
        match rest with
        | [] => .error (.stxErr "EOI" "Unexpected end of input")
        | t2 :: rest2 =>
          match readOperandTok t2 with
          | .error e => .error e
          | .ok e2 => parseExprLoop (expr_buf ++ [e2, .op .mul]) prev_op rest2
      else
        match rest with
        | [] => .error (.stxErr "EOI" "Unexpected end of input")
        | t2 :: rest2 =>
          match readOperandTok t2 with
          | .error e => .error e
          | .ok e2 => parseExprLoop (expr_buf ++ [.op prev_op, e2]) .mul rest2
    | .slash =>
      if prev_op ≠ .mul then
        match rest with
        | [] => .error (.stxErr "EOI" "Unexpected end of input")
        | t2 :: rest2 =>
          match readOperandTok t2 with
          | .error e => .error e
          | .ok e2 => parseExprLoop (expr_buf ++ [e2, .op .div]) prev_op rest2
      else
        match rest with
        | [] => .error (.stxErr "EOI" "Unexpected end of input")
        | t2 :: rest2 =>
          match readOperandTok t2 with
          | .error e => .error e
          | .ok e2 => parseExprLoop (expr_buf ++ [.op prev_op, e2]) .div rest2
    | _ => .ok (expr_buf ++ [.op prev_op], tok :: rest)

/-- `parse_expr` from parser.rs:48-136: push the first operand; peek — if the
next token is not one of the four operators, return the one-element range;
otherwise consume the operator (`toks1.tail` is the `lex.next()`), push the next
operand and run the main loop.  Returns the range, the grown buffer, and the
remaining tokens. -/
def parse_expr (expr_buf : List Expr) (toks : List Token) :
    Except Fatal (Rng × List Expr × List Token) :=
  match expect_read toks with
  | .error e => .error e
  | .ok (e1, toks1) =>
    match expect_peek toks1 with
    | .error e => .error e
    | .ok tok =>
      match initOpKind tok.kind with
      | none => .ok (⟨expr_buf.length, (expr_buf ++ [e1]).length⟩, expr_buf ++ [e1], toks1)
      | some prev0 =>
        match expect_read toks1.tail with
        | .error e => .error e
        | .ok (e2, toks3) =>
          match parseExprLoop (expr_buf ++ [e1, e2]) prev0 toks3 with
          | .error e => .error e
          | .ok (bufF, toksF) => .ok (⟨expr_buf.length, bufF.length⟩, bufF, toksF)

/-- The statement loop of `parse` (parser.rs:33-45).  `fuel` bounds the number of
iterations; `parse` supplies `toks.length`, which always suffices because each
iteration consumes at least one token (`parseLoop_fuel_sufficient`). -/
def parseLoop (fuel : Nat) (expr_buf : List Expr) (stmt_buf : List Stmt)
    (toks : List Token) : Except Fatal (List Expr × List Stmt) :=
  match toks with
  | [] => .ok (expr_buf, stmt_buf)
  | tok :: rest =>
    match fuel with
    | 0 => .error .fuelErr
    | fuel' + 1 =>
      match tok.kind with
      | .name =>
        match expect_specific_next .eq rest with
        | .error e => .error e
        | .ok p1 =>
          match parse_expr expr_buf p1.2 with
          | .error e => .error e
          | .ok (rng, bufE, toksE) =>
            match expect_specific_next .semicolon toksE with
            | .error e => .error e
            | .ok p2 => parseLoop fuel' bufE (stmt_buf ++ [⟨tok.data, rng⟩]) p2.2
      | _ => .error (.todoErr "now only variable assign stmt is avilable")

/-- `parse` from parser.rs:27-46: run the statement loop on empty buffers. -/
def parse (toks : List Token) : Except Fatal (List Expr × List Stmt) :=
  parseLoop toks.length [] [] toks

/-- Stack effect of evaluating a postfix slice left to right, as the spec's
calculator stack: `var`/`num` push one value, `op` pops two and pushes one;
`none` signals stack underflow. -/
def stackDepth : List Expr → Nat → Option Nat
  | [], d => some d
  | .var _ :: rest, d => stackDepth rest (d + 1)
  | .num _ :: rest, d => stackDepth rest (d + 1)
  | .op _ :: rest, d => if 2 ≤ d then stackDepth rest (d - 1) else none

/-- The slice of the expression buffer a half-open range denotes. -/
def rangeSlice (buf : List Expr) (r : Rng) : List Expr :=
  (buf.drop r.start).take (r.stop - r.start)

/-- `rangesChain stmts a b`: the statements' expression ranges tile `[a, b)` in
order — each range starts where the previous one stopped. -/
def rangesChain : List Stmt → Nat → Nat → Prop
  | [], a, b => a = b
  | s :: rest, a, b => s.expr.start = a ∧ rangesChain rest s.expr.stop b

/-- The token is an operand `expect_read` accepts without fault: a Name, or a
Num whose text decodes as `i32`. -/
def operandOk (t : Token) : Bool :=
  match t.kind with
  | .name => true
  | .num => (i32OfStr t.data).isSome
  | _ => false

/-- The token kinds the main loop of `parse_expr` handles as operators. -/
def isLoopOpTok (t : Token) : Bool :=
  match t.kind with
  | .plus => true
  | .star => true
  | .slash => true
  | _ => false

/-- Flatten a list of (operator, operand) pairs into a token chain. -/
def chainToks : List (Token × Token) → List Token
  | [] => []
  | (o, a) :: ps => o :: a :: chainToks ps

/-- Side condition for a chain the parser consumes in full: the first pair's
operator may be any of the four operator tokens, every later operator must be
one the main loop handles (Plus, Star or Slash), and every operand must decode. -/
def chainOk : List (Token × Token) → Bool
  | [] => true
  | (o, a) :: ps =>
    (initOpKind o.kind).isSome && operandOk a &&
      ps.all (fun p => isLoopOpTok p.1 && operandOk p.2)

/-! ## Supporting lemmas -/

/-- Evaluating an appended slice composes the stack effects. -/
theorem stackDepth_append (xs ys : List Expr) (d : Nat) :
    stackDepth (xs ++ ys) d = (stackDepth xs d).bind (fun m => stackDepth ys m) := by
  induction xs generalizing d with
  | nil => simp [stackDepth]
  | cons x rest ih =>
    cases x with
    | var s => simp [stackDepth, ih]
    | num v => simp [stackDepth, ih]
    | op k =>
      by_cases h : 2 ≤ d
      · simp [stackDepth, h, ih]
      · simp [stackDepth, h]

/-- An operand produced by `expect_read`s classification pushes exactly one value. -/
theorem readOperandTok_shape {t : Token} {e : Expr} (h : readOperandTok t = .ok e) :
    ∀ d, stackDepth [e] d = some (d + 1) := by
  intro d
  unfold readOperandTok at h
  cases hk : t.kind <;> simp [hk] at h
  · subst h; simp [stackDepth]
  · cases hp : parse_num t.data <;> simp [hp] at h
    subst h; simp [stackDepth]

/-- Stack effect of the chain-closing emission `Op prev` followed by an operand. -/
theorem closeStep {e2 : Expr} {t1 : Token} (her : readOperandTok t1 = .ok e2) (k : OpKind) :
    ∀ d, 2 ≤ d → stackDepth [Expr.op k, e2] d = some d := by
  intro d hd
  have h2 := readOperandTok_shape her (d - 1)
  have h3 : d - 1 + 1 = d := by omega
  simp [stackDepth, hd, h2, h3]

/-- Stack effect of the immediate-folding emission: operand then `Op k`. -/
theorem foldStep {e2 : Expr} {t1 : Token} (her : readOperandTok t1 = .ok e2) (k : OpKind) :
    ∀ d, 1 ≤ d → stackDepth [e2, Expr.op k] d = some d := by
  intro d hd
  have h2 : stackDepth [e2, Expr.op k] d
      = (stackDepth [e2] d).bind (fun m => stackDepth [Expr.op k] m) := by
    simpa using stackDepth_append [e2] [Expr.op k] d
  have h3 : 2 ≤ d + 1 := by omega
  have h4 : d + 1 - 1 = d := by omega
  rw [h2, readOperandTok_shape her d]
  simp [stackDepth, h3, h4]

/-- Main-loop invariant: on success the loop appends a slice whose stack effect
at any depth `d ≥ 2` is `d - 1`, returns a suffix of its input tokens, and stops
on a peeked token it does not handle (not Plus/Star/Slash), left unconsumed. -/
theorem parseExprLoop_ok (buf : List Expr) (prev : OpKind) (toks : List Token) :
    ∀ buf' toks', parseExprLoop buf prev toks = .ok (buf', toks') →
    (∃ Δ, buf' = buf ++ Δ ∧ ∀ d, 2 ≤ d → stackDepth Δ d = some (d - 1)) ∧
    toks'.IsSuffix toks ∧
    (∃ t rest, toks' = t :: rest ∧ t.kind ≠ .plus ∧ t.kind ≠ .star ∧ t.kind ≠ .slash) := by
  induction buf, prev, toks using parseExprLoop.induct with
  | case1 b p =>
    intro buf' toks' h
    simp [parseExprLoop] at h
  | case2 b p t ht =>
    intro buf' toks' h
    obtain ⟨tk, td, tl⟩ := t
    simp only at ht
    subst ht
    simp [parseExprLoop] at h
  | case3 b p t ht t1 rest e her =>
    intro buf' toks' h
    obtain ⟨tk, td, tl⟩ := t
    simp only at ht
    subst ht
    simp [parseExprLoop, her] at h
  | case4 b p t ht t1 rest e2 her ih =>
    intro buf' toks' h
    obtain ⟨tk, td, tl⟩ := t
    simp only at ht
    subst ht
    simp only [parseExprLoop, her] at h
    obtain ⟨⟨D, hD, hdep⟩, hsuf, hhead⟩ := ih buf' toks' h
    refine ⟨⟨[Expr.op p, e2] ++ D, by simp [hD], ?_⟩, ?_, hhead⟩
    · intro d hd
      rw [stackDepth_append, closeStep her p d hd]
      exact hdep d hd
    · exact (hsuf.trans (List.suffix_cons t1 rest)).trans
        (List.suffix_cons ⟨.plus, td, tl⟩ (t1 :: rest))
  | case5 b p t ht hp =>
    intro buf' toks' h
    obtain ⟨tk, td, tl⟩ := t
    simp only at ht
    subst ht
    simp [parseExprLoop, hp] at h
  | case6 b p t ht hp t1 rest e her =>
    intro buf' toks' h
    obtain ⟨tk, td, tl⟩ := t
    simp only at ht
    subst ht
    simp [parseExprLoop, hp, her] at h
  | case7 b p t ht hp t1 rest e2 her ih =>
    intro buf' toks' h
    obtain ⟨tk, td, tl⟩ := t
    simp only at ht
    subst ht
    simp only [parseExprLoop] at h
    rw [if_pos hp] at h
    simp only [her] at h
    obtain ⟨⟨D, hD, hdep⟩, hsuf, hhead⟩ := ih buf' toks' h
    refine ⟨⟨[e2, Expr.op .mul] ++ D, by simp [hD], ?_⟩, ?_, hhead⟩
    · intro d hd
      rw [stackDepth_append, foldStep her .mul d (by omega)]
      exact hdep d hd
    · exact (hsuf.trans (List.suffix_cons t1 rest)).trans
        (List.suffix_cons ⟨.star, td, tl⟩ (t1 :: rest))
  | case8 b p t ht hp =>
    intro buf' toks' h
    obtain ⟨tk, td, tl⟩ := t
    simp only at ht
    subst ht
    simp only [parseExprLoop] at h
    rw [if_neg hp] at h
    simp at h
  | case9 b p t ht hp t1 rest e her =>
    intro buf' toks' h
    obtain ⟨tk, td, tl⟩ := t
    simp only at ht
    subst ht
    simp only [parseExprLoop] at h
    rw [if_neg hp] at h
    simp [her] at h
  | case10 b p t ht hp t1 rest e2 her ih =>
    intro buf' toks' h
    obtain ⟨tk, td, tl⟩ := t
    simp only at ht
    subst ht
    simp only [parseExprLoop] at h
    rw [if_neg hp] at h
    simp only [her] at h
    obtain ⟨⟨D, hD, hdep⟩, hsuf, hhead⟩ := ih buf' toks' h
    refine ⟨⟨[Expr.op p, e2] ++ D, by simp [hD], ?_⟩, ?_, hhead⟩
    · intro d hd
      rw [stackDepth_append, closeStep her p d hd]
      exact hdep d hd
    · exact (hsuf.trans (List.suffix_cons t1 rest)).trans
        (List.suffix_cons ⟨.star, td, tl⟩ (t1 :: rest))
  | case11 b p t ht hp =>
    intro buf' toks' h
    obtain ⟨tk, td, tl⟩ := t
    simp only at ht
    subst ht
    simp only [parseExprLoop] at h
    rw [if_pos hp] at h
    simp at h
  | case12 b p t ht hp t1 rest e her =>
    intro buf' toks' h
    obtain ⟨tk, td, tl⟩ := t
    simp only at ht
    subst ht
    simp only [parseExprLoop] at h
    rw [if_pos hp] at h
    simp [her] at h
  | case13 b p t ht hp t1 rest e2 her ih =>
    intro buf' toks' h
    obtain ⟨tk, td, tl⟩ := t
    simp only at ht
    subst ht
    simp only [parseExprLoop] at h
    rw [if_pos hp] at h
    simp only [her] at h
    obtain ⟨⟨D, hD, hdep⟩, hsuf, hhead⟩ := ih buf' toks' h
    refine ⟨⟨[e2, Expr.op .div] ++ D, by simp [hD], ?_⟩, ?_, hhead⟩
    · intro d hd
      rw [stackDepth_append, foldStep her .div d (by omega)]
      exact hdep d hd
    · exact (hsuf.trans (List.suffix_cons t1 rest)).trans
        (List.suffix_cons ⟨.slash, td, tl⟩ (t1 :: rest))
  | case14 b p t ht hp =>
    intro buf' toks' h
    obtain ⟨tk, td, tl⟩ := t
    simp only at ht
    subst ht
    simp only [parseExprLoop] at h
    rw [if_neg hp] at h
    simp at h
  | case15 b p t ht hp t1 rest e her =>
    intro buf' toks' h
    obtain ⟨tk, td, tl⟩ := t
    simp only at ht
    subst ht
    simp only [parseExprLoop] at h
    rw [if_neg hp] at h
    simp [her] at h
  | case16 b p t ht hp t1 rest e2 her ih =>
    intro buf' toks' h
    obtain ⟨tk, td, tl⟩ := t
    simp only at ht
    subst ht
    simp only [parseExprLoop] at h
    rw [if_neg hp] at h
    simp only [her] at h
    obtain ⟨⟨D, hD, hdep⟩, hsuf, hhead⟩ := ih buf' toks' h
    refine ⟨⟨[Expr.op p, e2] ++ D, by simp [hD], ?_⟩, ?_, hhead⟩
    · intro d hd
      rw [stackDepth_append, closeStep her p d hd]
      exact hdep d hd
    · exact (hsuf.trans (List.suffix_cons t1 rest)).trans
        (List.suffix_cons ⟨.slash, td, tl⟩ (t1 :: rest))
  | case17 b p t rest h1 h2 h3 =>
    intro buf' toks' h
    obtain ⟨tk, td, tl⟩ := t
    simp only at h1 h2 h3
    cases tk with
    | plus => exact absurd rfl h1
    | star => exact absurd rfl h2
    | slash => exact absurd rfl h3
    | name =>
      simp only [parseExprLoop, Except.ok.injEq, Prod.mk.injEq] at h
      obtain ⟨hb, htk⟩ := h
      subst hb; subst htk
      refine ⟨⟨[Expr.op p], rfl, ?_⟩, List.suffix_refl _,
        ⟨_, _, rfl, by simp, by simp, by simp⟩⟩
      intro d hd
      simp [stackDepth, hd]
    | num =>
      simp only [parseExprLoop, Except.ok.injEq, Prod.mk.injEq] at h
      obtain ⟨hb, htk⟩ := h
      subst hb; subst htk
      refine ⟨⟨[Expr.op p], rfl, ?_⟩, List.suffix_refl _,
        ⟨_, _, rfl, by simp, by simp, by simp⟩⟩
      intro d hd
      simp [stackDepth, hd]
    | minus =>
      simp only [parseExprLoop, Except.ok.injEq, Prod.mk.injEq] at h
      obtain ⟨hb, htk⟩ := h
      subst hb; subst htk
      refine ⟨⟨[Expr.op p], rfl, ?_⟩, List.suffix_refl _,
        ⟨_, _, rfl, by simp, by simp, by simp⟩⟩
      intro d hd
      simp [stackDepth, hd]
    | eq =>
      simp only [parseExprLoop, Except.ok.injEq, Prod.mk.injEq] at h
      obtain ⟨hb, htk⟩ := h
      subst hb; subst htk
      refine ⟨⟨[Expr.op p], rfl, ?_⟩, List.suffix_refl _,
        ⟨_, _, rfl, by simp, by simp, by simp⟩⟩
      intro d hd
      simp [stackDepth, hd]
    | semicolon =>
      simp only [parseExprLoop, Except.ok.injEq, Prod.mk.injEq] at h
      obtain ⟨hb, htk⟩ := h
      subst hb; subst htk
      refine ⟨⟨[Expr.op p], rfl, ?_⟩, List.suffix_refl _,
        ⟨_, _, rfl, by simp, by simp, by simp⟩⟩
      intro d hd
      simp [stackDepth, hd]

/-- A successful `expect_read` consumed exactly the head token and classified it. -/
theorem expect_read_ok {ts : List Token} {e : Expr} {ts' : List Token}
    (h : expect_read ts = .ok (e, ts')) :
    ∃ t, ts = t :: ts' ∧ readOperandTok t = .ok e := by
  cases ts with
  | nil => simp [expect_read, expect_next] at h
  | cons t rest =>
    refine ⟨t, ?_⟩
    simp only [expect_read, expect_next] at h
    cases hr : readOperandTok t with
    | error e0 => rw [hr] at h; simp at h
    | ok e0 =>
      rw [hr] at h
      simp only [Except.ok.injEq, Prod.mk.injEq] at h
      obtain ⟨h1, h2⟩ := h
      subst h2
      exact ⟨rfl, congrArg Except.ok h1⟩

/-- A token kind the initial dispatch does not map to an operator is none of the
four operator kinds. -/
theorem initOpKind_none {k : TokenKind} (h : initOpKind k = none) :
    k ≠ .plus ∧ k ≠ .minus ∧ k ≠ .star ∧ k ≠ .slash := by
  cases k <;> simp_all [initOpKind]

/-- Master specification of a successful `parse_expr`: the returned range is
exactly the appended slice, that slice evaluates to one stack value, the
remaining tokens are a proper suffix of the input, and their head is a token the
main loop does not handle. -/
theorem parse_expr_ok {buf : List Expr} {toks : List Token} {rng : Rng}
    {buf' : List Expr} {toks' : List Token}
    (h : parse_expr buf toks = .ok (rng, buf', toks')) :
    rng.start = buf.length ∧ rng.stop = buf'.length ∧
    (∃ Δ, buf' = buf ++ Δ ∧ stackDepth Δ 0 = some 1) ∧
    toks'.IsSuffix toks ∧ toks'.length < toks.length ∧
    (∃ t rest, toks' = t :: rest ∧ t.kind ≠ .plus ∧ t.kind ≠ .star ∧ t.kind ≠ .slash) := by
  unfold parse_expr at h
  cases he1 : expect_read toks with
  | error e => rw [he1] at h; simp at h
  | ok p1 =>
    rw [he1] at h
    dsimp only at h
    obtain ⟨e1, toks1⟩ := p1
    obtain ⟨t0, hts, hr1⟩ := expect_read_ok he1
    cases hpk : expect_peek toks1 with
    | error e => rw [hpk] at h; simp at h
    | ok tok =>
      rw [hpk] at h
      dsimp only at h
      cases hio : initOpKind tok.kind with
      | none =>
        rw [hio] at h
        dsimp only at h
        simp only [Except.ok.injEq, Prod.mk.injEq] at h
        obtain ⟨h1, h2, h3⟩ := h
        subst h1; subst h2; subst h3
        obtain ⟨hk1, hk2, hk3, hk4⟩ := initOpKind_none hio
        cases toks1 with
        | nil => simp [expect_peek] at hpk
        | cons u us =>
          simp only [expect_peek, Except.ok.injEq] at hpk
          subst hpk
          refine ⟨rfl, rfl, ⟨[e1], rfl, ?_⟩, ?_, ?_, ⟨u, us, rfl, hk1, hk3, hk4⟩⟩
          · have := readOperandTok_shape hr1 0
            simpa using this
          · rw [hts]; exact List.suffix_cons t0 _
          · rw [hts]; simp
      | some prev0 =>
        rw [hio] at h
        dsimp only at h
        cases he2 : expect_read toks1.tail with
        | error e => rw [he2] at h; simp at h
        | ok p2 =>
          rw [he2] at h
          dsimp only at h
          obtain ⟨e2, toks3⟩ := p2
          obtain ⟨t2, hts2, hr2⟩ := expect_read_ok he2
          cases hlp : parseExprLoop (buf ++ [e1, e2]) prev0 toks3 with
          | error e => rw [hlp] at h; simp at h
          | ok pf =>
            rw [hlp] at h
            dsimp only at h
            obtain ⟨bufF, toksF⟩ := pf
            simp only [Except.ok.injEq, Prod.mk.injEq] at h
            obtain ⟨h1, h2, h3⟩ := h
            subst h1; subst h2; subst h3
            obtain ⟨⟨D, hD, hdep⟩, hsuf, hhead⟩ := parseExprLoop_ok _ _ _ _ _ hlp
            have hsuf3 : toks3.IsSuffix toks1 := by
              cases toks1 with
              | nil => simp [expect_peek] at hpk
              | cons u us =>
                simp only [List.tail_cons] at hts2
                rw [hts2]
                exact (List.suffix_cons t2 toks3).trans (List.suffix_cons u _)
            have hsufF : toksF.IsSuffix toks := by
              rw [hts]
              exact (hsuf.trans hsuf3).trans (List.suffix_cons t0 toks1)
            refine ⟨rfl, rfl, ⟨[e1, e2] ++ D, by simp [hD], ?_⟩, hsufF, ?_, hhead⟩
            · rw [stackDepth_append]
              have s1 : stackDepth [e1, e2] 0 = some 2 := by
                have a1 := readOperandTok_shape hr1 0
                have a2 := readOperandTok_shape hr2 1
                have hb : stackDepth [e1, e2] 0
                    = (stackDepth [e1] 0).bind (fun m => stackDepth [e2] m) := by
                  simpa using stackDepth_append [e1] [e2] 0
                rw [hb, a1]
                simpa using a2
              rw [s1]
              simpa using hdep 2 (by omega)
            · have l1 := hsuf.length_le
              have l2 := hsuf3.length_le
              have l3 : toks.length = toks1.length + 1 := by rw [hts]; simp
              omega

/-- A successful `expect_specific_next` consumed exactly the head token, which
has the requested kind. -/
theorem expect_specific_next_ok {k : TokenKind} {ts : List Token} {p : Token × List Token}
    (h : expect_specific_next k ts = .ok p) : ts = p.1 :: p.2 ∧ p.1.kind = k := by
  cases ts with
  | nil => simp [expect_specific_next] at h
  | cons t rest =>
    simp only [expect_specific_next] at h
    by_cases hk : t.kind = k
    · rw [if_pos hk] at h
      simp only [Except.ok.injEq] at h
      subst h
      exact ⟨rfl, hk⟩
    · rw [if_neg hk] at h
      simp at h

/-- Statement-loop invariant: a successful `parseLoop` extends the statement
buffer with statements whose ranges tile the expression buffer from its length
at entry up to its final length. -/
theorem parseLoop_stmts : ∀ (fuel : Nat) (toks : List Token) (ebuf : List Expr)
    (sbuf : List Stmt) (E : List Expr) (S : List Stmt),
    parseLoop fuel ebuf sbuf toks = .ok (E, S) →
    ∃ tl, S = sbuf ++ tl ∧ rangesChain tl ebuf.length E.length := by
  intro fuel
  induction fuel with
  | zero =>
    intro toks ebuf sbuf E S h
    cases toks with
    | nil =>
      simp only [parseLoop, Except.ok.injEq, Prod.mk.injEq] at h
      obtain ⟨h1, h2⟩ := h
      subst h1; subst h2
      exact ⟨[], by simp, rfl⟩
    | cons t rest => simp [parseLoop] at h
  | succ fuel ih =>
    intro toks ebuf sbuf E S h
    cases toks with
    | nil =>
      simp only [parseLoop, Except.ok.injEq, Prod.mk.injEq] at h
      obtain ⟨h1, h2⟩ := h
      subst h1; subst h2
      exact ⟨[], by simp, rfl⟩
    | cons tok rest =>
      obtain ⟨tk, td, tl0⟩ := tok
      cases tk
      case name =>
        simp only [parseLoop] at h
        cases hsp1 : expect_specific_next .eq rest with
        | error e0 => rw [hsp1] at h; simp at h
        | ok p1 =>
          rw [hsp1] at h
          dsimp only at h
          cases hpe : parse_expr ebuf p1.2 with
          | error e0 => rw [hpe] at h; simp at h
          | ok r =>
            obtain ⟨rng, bufE, toksE⟩ := r
            rw [hpe] at h
            dsimp only at h
            cases hsp2 : expect_specific_next .semicolon toksE with
            | error e0 => rw [hsp2] at h; simp at h
            | ok p2 =>
              rw [hsp2] at h
              dsimp only at h
              obtain ⟨tl, htl, hchain⟩ := ih p2.2 bufE (sbuf ++ [⟨td, rng⟩]) E S h
              obtain ⟨hs, he, _⟩ := parse_expr_ok hpe
              refine ⟨⟨td, rng⟩ :: tl, by simp [htl], ?_⟩
              simp only [rangesChain]
              refine ⟨hs, ?_⟩
              rw [← he] at hchain
              exact hchain
      all_goals simp [parseLoop] at h

/-- The fuel `parse` supplies is irrelevant: any two sufficient fuels give the
same result, so the fuel-based embedding of the unbounded Rust loop is faithful. -/
theorem parseLoop_fuel_sufficient : ∀ (fuel fuel' : Nat) (toks : List Token)
    (ebuf : List Expr) (sbuf : List Stmt),
    toks.length ≤ fuel → toks.length ≤ fuel' →
    parseLoop fuel ebuf sbuf toks = parseLoop fuel' ebuf sbuf toks := by
  intro fuel
  induction fuel with
  | zero =>
    intro fuel' toks e s h h'
    cases toks with
    | nil => cases fuel' <;> simp [parseLoop]
    | cons t r => simp at h
  | succ f ih =>
    intro fuel' toks e s h h'
    cases toks with
    | nil => cases fuel' <;> simp [parseLoop]
    | cons tok rest =>
      cases fuel' with
      | zero => simp at h'
      | succ f' =>
        obtain ⟨tk, td, tl0⟩ := tok
        cases tk
        case name =>
          simp only [parseLoop]
          cases hsp1 : expect_specific_next .eq rest with
          | error e0 => rfl
          | ok p1 =>
            dsimp only
            cases hpe : parse_expr e p1.2 with
            | error e0 => rfl
            | ok r =>
              obtain ⟨rng, bufE, toksE⟩ := r
              dsimp only
              cases hsp2 : expect_specific_next .semicolon toksE with
              | error e0 => rfl
              | ok p2 =>
                dsimp only
                have hc1 := expect_specific_next_ok hsp1
                have hc2 := expect_specific_next_ok hsp2
                obtain ⟨_, _, _, _, hlen, _⟩ := parse_expr_ok hpe
                have hr1 : rest.length = p1.2.length + 1 := by rw [hc1.1]; simp
                have hr2 : toksE.length = p2.2.length + 1 := by rw [hc2.1]; simp
                apply ih
                · simp at h; omega
                · simp at h'; omega
        all_goals simp only [parseLoop]

/-- A token `operandOk` accepts classifies successfully. -/
theorem operandOk_read {a : Token} (h : operandOk a = true) :
    ∃ e, readOperandTok a = .ok e := by
  obtain ⟨ak, ad, al⟩ := a
  simp only [operandOk] at h
  cases ak <;> simp_all [readOperandTok]
  obtain ⟨v, hv⟩ := Option.isSome_iff_exists.mp h
  exact ⟨.num v, by simp [parse_num, hv]⟩

/-- A token the initial dispatch rejects is also not a loop operator. -/
theorem initOpKind_none_not_loop {t : Token} (h : initOpKind t.kind = none) :
    isLoopOpTok t = false := by
  obtain ⟨tk, td, tl⟩ := t
  simp only at h
  cases tk <;> simp_all [initOpKind, isLoopOpTok]

/-- The main loop consumes a whole `(op operand)*` chain of loop operators
(Plus/Star/Slash) with decodable operands, stopping exactly at the first
non-loop-operator token, which it leaves in the stream. -/
theorem parseExprLoop_chain : ∀ (ps : List (Token × Token)) (buf : List Expr)
    (prev : OpKind) (t : Token) (rest : List Token),
    (ps.all fun p => isLoopOpTok p.1 && operandOk p.2) = true →
    isLoopOpTok t = false →
    ∃ bufF, parseExprLoop buf prev (chainToks ps ++ t :: rest) = .ok (bufF, t :: rest) := by
  intro ps
  induction ps with
  | nil =>
    intro buf prev t rest hall ht
    obtain ⟨tk, td, tl⟩ := t
    simp only [isLoopOpTok] at ht
    cases tk <;> simp_all [parseExprLoop, chainToks]
  | cons p ps ih =>
    intro buf prev t rest hall ht
    obtain ⟨o, a⟩ := p
    simp only [List.all_cons, Bool.and_eq_true] at hall
    obtain ⟨⟨ho, ha⟩, hps⟩ := hall
    obtain ⟨e2, he2⟩ := operandOk_read ha
    obtain ⟨ok', od, ol⟩ := o
    simp only [isLoopOpTok] at ho
    have hck : chainToks ((⟨ok', od, ol⟩, a) :: ps) ++ t :: rest
        = ⟨ok', od, ol⟩ :: a :: (chainToks ps ++ t :: rest) := by simp [chainToks]
    rw [hck]
    cases ok' <;> simp only [isLoopOpTok] at ho <;> try exact Bool.noConfusion ho
    case plus =>
      obtain ⟨bufF, hF⟩ := ih (buf ++ [.op prev, e2]) .add t rest hps ht
      exact ⟨bufF, by simp only [parseExprLoop, he2]; exact hF⟩
    case star =>
      by_cases hp : prev = .div
      · obtain ⟨bufF, hF⟩ := ih (buf ++ [.op prev, e2]) .mul t rest hps ht
        refine ⟨bufF, ?_⟩
        simp only [parseExprLoop]
        rw [if_neg (by simp [hp])]
        simp only [he2]
        exact hF
      · obtain ⟨bufF, hF⟩ := ih (buf ++ [e2, .op .mul]) prev t rest hps ht
        refine ⟨bufF, ?_⟩
        simp only [parseExprLoop]
        rw [if_pos hp]
        simp only [he2]
        exact hF
    case slash =>
      by_cases hp : prev = .mul
      · obtain ⟨bufF, hF⟩ := ih (buf ++ [.op prev, e2]) .div t rest hps ht
        refine ⟨bufF, ?_⟩
        simp only [parseExprLoop]
        rw [if_neg (by simp [hp])]
        simp only [he2]
        exact hF
      · obtain ⟨bufF, hF⟩ := ih (buf ++ [e2, .op .div]) prev t rest hps ht
        refine ⟨bufF, ?_⟩
        simp only [parseExprLoop]
        rw [if_pos hp]
        simp only [he2]
        exact hF

/-! ## Claim theorems -/

/-- C1: for every successful call to `parse_expr`, the half-open range it
returns into the expression buffer, when evaluated left to right by a stack
machine (Var and Num push one value; Op pops two values and pushes one), never
underflows the stack and leaves exactly one value on it at the end. -/
theorem c1_postfix_stack_safe (buf : List Expr) (toks : List Token) (rng : Rng)
    (buf' : List Expr) (toks' : List Token)
    (h : parse_expr buf toks = .ok (rng, buf', toks')) :
    stackDepth (rangeSlice buf' rng) 0 = some 1 := by
  obtain ⟨hs, he, ⟨D, hD, hd⟩, _, _, _⟩ := parse_expr_ok h
  subst hD
  unfold rangeSlice
  rw [hs, he]
  rw [List.drop_left]
  have h2 : (buf ++ D).length - buf.length = D.length := by simp
  rw [h2, List.take_length]
  exact hd

/-- Witness for C1 on the single-operand expression `1;`. -/
theorem c1_witness : stackDepth (rangeSlice [Expr.num 1] ⟨0, 1⟩) 0 = some 1 :=
  c1_postfix_stack_safe [] [⟨.num, "1", 0⟩, ⟨.semicolon, ";", 1⟩] ⟨0, 1⟩ [Expr.num 1]
    [⟨.semicolon, ";", 1⟩] rfl

/-- C2 counterexample: on the grammar-conforming token sequence `1 - 2 - 3 ;`
(operand (op operand)* with op Minus, then a non-operator terminator),
`parse_expr` does not consume every operand and operator: the remaining token
list is not just the terminator — the second Minus and the operand `3` are left
unconsumed (the main loop of parser.rs:101-131 has no Minus arm, so a peeked
Minus takes the terminating default arm). -/
theorem c2_counterexample :
    ¬ ((parse_expr [] [⟨.num, "1", 0⟩, ⟨.minus, "-", 2⟩, ⟨.num, "2", 4⟩, ⟨.minus, "-", 6⟩,
        ⟨.num, "3", 8⟩, ⟨.semicolon, ";", 9⟩]).toOption.map (fun r => r.2.2)
      = some [⟨.semicolon, ";", 9⟩]) ∧
    (parse_expr [] [⟨.num, "1", 0⟩, ⟨.minus, "-", 2⟩, ⟨.num, "2", 4⟩, ⟨.minus, "-", 6⟩,
        ⟨.num, "3", 8⟩, ⟨.semicolon, ";", 9⟩]).toOption.map (fun r => r.2.2)
      = some [⟨.minus, "-", 6⟩, ⟨.num, "3", 8⟩, ⟨.semicolon, ";", 9⟩] := by
  refine ⟨?_, rfl⟩
  decide

/-- C2 (amended): for every token sequence `operand (op operand)*` whose first
operator is any of the four operator tokens but whose operators after the first
are in {+, *, /} (operands Name or decodable Num), followed by a non-operator
terminator, `parse_expr` accepts the whole sequence — consuming every operand
and operator — and returns a range covering the postfix form it appended.  A
Minus peeked in the main loop (any operator position after the first) instead
terminates the expression there, unconsumed. -/
theorem c2_amended_minus_chain (buf : List Expr) (t0 : Token) (ps : List (Token × Token))
    (t : Token) (rest : List Token) (h0 : operandOk t0 = true) (hps : chainOk ps = true)
    (ht : initOpKind t.kind = none) :
    ∃ bufF, parse_expr buf (t0 :: (chainToks ps ++ t :: rest))
        = .ok (⟨buf.length, bufF.length⟩, bufF, t :: rest) ∧ ∃ Δ, bufF = buf ++ Δ := by
  obtain ⟨e1, he1⟩ := operandOk_read h0
  cases ps with
  | nil =>
    refine ⟨buf ++ [e1], ?_, [e1], rfl⟩
    simp [chainToks, parse_expr, expect_read, expect_next, he1, expect_peek, ht]
  | cons p ps' =>
    obtain ⟨o1, a1⟩ := p
    simp only [chainOk, Bool.and_eq_true] at hps
    obtain ⟨⟨ho1, ha1⟩, hall⟩ := hps
    obtain ⟨prev0, hprev⟩ := Option.isSome_iff_exists.mp ho1
    obtain ⟨e2, he2⟩ := operandOk_read ha1
    have hloopt : isLoopOpTok t = false := initOpKind_none_not_loop ht
    obtain ⟨bufF, hF⟩ := parseExprLoop_chain ps' (buf ++ [e1, e2]) prev0 t rest hall hloopt
    refine ⟨bufF, ?_, ?_⟩
    · simp only [chainToks, List.cons_append, List.append_assoc]
      simp [parse_expr, expect_read, expect_next, he1, he2, expect_peek, hprev, hF]
    · obtain ⟨⟨D, hD, _⟩, _, _⟩ := parseExprLoop_ok _ _ _ _ _ hF
      exact ⟨[e1, e2] ++ D, by simp [hD]⟩

/-- Witness for the amended C2 on the chain `1 + 2 ;`. -/
theorem c2_witness :
    ∃ bufF, parse_expr [] ((⟨TokenKind.num, "1", 0⟩ : Token) ::
        (chainToks [(⟨TokenKind.plus, "+", 2⟩, ⟨TokenKind.num, "2", 4⟩)] ++
          (⟨TokenKind.semicolon, ";", 5⟩ : Token) :: ([] : List Token)))
      = .ok (⟨0, bufF.length⟩, bufF, [⟨TokenKind.semicolon, ";", 5⟩]) ∧
      ∃ Δ, bufF = [] ++ Δ :=
  c2_amended_minus_chain [] ⟨TokenKind.num, "1", 0⟩
    [(⟨TokenKind.plus, "+", 2⟩, ⟨TokenKind.num, "2", 4⟩)]
    ⟨TokenKind.semicolon, ";", 5⟩ [] rfl rfl rfl

/-- C3: in the main loop, on peeking Plus the parser consumes it, emits
`Op prev_op` (closing the preceding chain), sets `prev_op` to Add and pushes the
next operand; consequently parsing `1 + 2 + 3` appends exactly
[Num 1, Num 2, Op Add, Num 3, Op Add]. -/
theorem c3_plus_closes_chain :
    (∀ (buf : List Expr) (prev : OpKind) (o a : Token) (rest : List Token) (e : Expr),
      o.kind = .plus → readOperandTok a = .ok e →
      parseExprLoop buf prev (o :: a :: rest)
        = parseExprLoop (buf ++ [.op prev, e]) .add rest) ∧
    parse_expr [] [⟨.num, "1", 0⟩, ⟨.plus, "+", 2⟩, ⟨.num, "2", 4⟩, ⟨.plus, "+", 6⟩,
        ⟨.num, "3", 8⟩, ⟨.semicolon, ";", 9⟩]
      = .ok (⟨0, 5⟩, [.num 1, .num 2, .op .add, .num 3, .op .add],
          [⟨.semicolon, ";", 9⟩]) := by
  constructor
  · intro buf prev o a rest e ho he
    obtain ⟨tk, td, tl⟩ := o
    simp only at ho
    subst ho
    simp only [parseExprLoop, he]
  · rfl

/-- Witness for the Plus step of C3 at a concrete state. -/
theorem c3_witness :
    parseExprLoop [] OpKind.add [⟨TokenKind.plus, "+", 0⟩, ⟨TokenKind.num, "7", 2⟩]
      = parseExprLoop ([] ++ [Expr.op OpKind.add, Expr.num 7]) OpKind.add [] :=
  c3_plus_closes_chain.1 [] OpKind.add ⟨TokenKind.plus, "+", 0⟩ ⟨TokenKind.num, "7", 2⟩
    [] (Expr.num 7) rfl rfl

/-- C4: when the main loop peeks Star and `prev_op` is not Div, the parser reads
and pushes the next operand, emits `Op Mul` immediately, and continues without
updating `prev_op`; consequently parsing `1 + 2*3` appends exactly
[Num 1, Num 2, Num 3, Op Mul, Op Add]. -/
theorem c4_star_folds :
    (∀ (buf : List Expr) (prev : OpKind) (o a : Token) (rest : List Token) (e : Expr),
      o.kind = .star → prev ≠ .div → readOperandTok a = .ok e →
      parseExprLoop buf prev (o :: a :: rest)
        = parseExprLoop (buf ++ [e, .op .mul]) prev rest) ∧
    parse_expr [] [⟨.num, "1", 0⟩, ⟨.plus, "+", 2⟩, ⟨.num, "2", 4⟩, ⟨.star, "*", 5⟩,
        ⟨.num, "3", 6⟩, ⟨.semicolon, ";", 7⟩]
      = .ok (⟨0, 5⟩, [.num 1, .num 2, .num 3, .op .mul, .op .add],
          [⟨.semicolon, ";", 7⟩]) := by
  constructor
  · intro buf prev o a rest e ho hp he
    obtain ⟨tk, td, tl⟩ := o
    simp only at ho
    subst ho
    simp only [parseExprLoop, he]
    rw [if_pos hp]
  · rfl

/-- Witness for the Star step of C4 at a concrete state with pending Add. -/
theorem c4_witness :
    parseExprLoop [] OpKind.add [⟨TokenKind.star, "*", 0⟩, ⟨TokenKind.num, "7", 2⟩]
      = parseExprLoop ([] ++ [Expr.num 7, Expr.op OpKind.mul]) OpKind.add [] :=
  c4_star_folds.1 [] OpKind.add ⟨TokenKind.star, "*", 0⟩ ⟨TokenKind.num, "7", 2⟩
    [] (Expr.num 7) rfl (by decide) rfl

/-- C5: with the Slash branch symmetric to Star, parsing `1 / 2 * 3` appends
exactly [Num 1, Num 2, Op Div, Num 3, Op Mul], and parsing `1 / 2 * 3 / 4`
appends exactly [Num 1, Num 2, Op Div, Num 3, Op Mul, Num 4, Op Div]. -/
theorem c5_slash_chains :
    parse_expr [] [⟨.num, "1", 0⟩, ⟨.slash, "/", 2⟩, ⟨.num, "2", 4⟩, ⟨.star, "*", 6⟩,
        ⟨.num, "3", 8⟩, ⟨.semicolon, ";", 9⟩]
      = .ok (⟨0, 5⟩, [.num 1, .num 2, .op .div, .num 3, .op .mul],
          [⟨.semicolon, ";", 9⟩]) ∧
    parse_expr [] [⟨.num, "1", 0⟩, ⟨.slash, "/", 2⟩, ⟨.num, "2", 4⟩, ⟨.star, "*", 6⟩,
        ⟨.num, "3", 8⟩, ⟨.slash, "/", 10⟩, ⟨.num, "4", 12⟩, ⟨.semicolon, ";", 13⟩]
      = .ok (⟨0, 7⟩, [.num 1, .num 2, .op .div, .num 3, .op .mul, .num 4, .op .div],
          [⟨.semicolon, ";", 13⟩]) :=
  ⟨rfl, rfl⟩

/-- C6: statement ranges partition a prefix chain of the shared expression
buffer in order (each range starts where its parse began, consecutive ranges
abut, the last ends at the final buffer length), and `parse_expr` only appends
to the buffer, never changing existing elements. -/
theorem c6_ranges_contiguous :
    (∀ (toks : List Token) (ebuf : List Expr) (stmts : List Stmt),
      parse toks = .ok (ebuf, stmts) → rangesChain stmts 0 ebuf.length) ∧
    (∀ (buf : List Expr) (toks : List Token) (rng : Rng) (buf' : List Expr)
      (toks' : List Token), parse_expr buf toks = .ok (rng, buf', toks') →
      rng.start = buf.length ∧ ∃ Δ, buf' = buf ++ Δ) := by
  constructor
  · intro toks ebuf stmts h
    obtain ⟨tl, htl, hchain⟩ := parseLoop_stmts toks.length toks [] [] ebuf stmts h
    simp only [List.nil_append] at htl
    subst htl
    simpa using hchain
  · intro buf toks rng buf' toks' h
    obtain ⟨hs, _, ⟨D, hD, _⟩, _, _, _⟩ := parse_expr_ok h
    exact ⟨hs, D, hD⟩

/-- Witness for C6 on the one-statement program `a = 1 ;` and on a single
`parse_expr` call. -/
theorem c6_witness : rangesChain [⟨"a", ⟨0, 1⟩⟩] 0 1 ∧ Rng.start ⟨0, 1⟩ = 0 := by
  constructor
  · exact c6_ranges_contiguous.1
      [⟨.name, "a", 0⟩, ⟨.eq, "=", 2⟩, ⟨.num, "1", 4⟩, ⟨.semicolon, ";", 5⟩]
      [Expr.num 1] [⟨"a", ⟨0, 1⟩⟩] rfl
  · exact (c6_ranges_contiguous.2 [] [⟨.num, "1", 0⟩, ⟨.semicolon, ";", 1⟩] ⟨0, 1⟩
      [Expr.num 1] [⟨.semicolon, ";", 1⟩] rfl).1

/-- C7: parsing a single-operand expression (the token after the first operand
is not one of the four operator tokens) returns a range of length exactly one
whose sole element is that operand. -/
theorem c7_single_operand (buf : List Expr) (t u : Token) (rest : List Token)
    (h1 : operandOk t = true) (h2 : initOpKind u.kind = none) :
    ∃ e, readOperandTok t = .ok e ∧
      parse_expr buf (t :: u :: rest)
        = .ok (⟨buf.length, buf.length + 1⟩, buf ++ [e], u :: rest) := by
  obtain ⟨e, he⟩ := operandOk_read h1
  refine ⟨e, he, ?_⟩
  simp [parse_expr, expect_read, expect_next, he, expect_peek, h2]

/-- Witness for C7 on `1;`. -/
theorem c7_witness :
    ∃ e, readOperandTok ⟨TokenKind.num, "1", 0⟩ = .ok e ∧
      parse_expr [] [⟨TokenKind.num, "1", 0⟩, ⟨TokenKind.semicolon, ";", 1⟩]
        = .ok (⟨0, 1⟩, [] ++ [e], [⟨TokenKind.semicolon, ";", 1⟩]) :=
  c7_single_operand [] ⟨TokenKind.num, "1", 0⟩ ⟨TokenKind.semicolon, ";", 1⟩ [] rfl rfl

/-- C8: every Num token's source text is decoded as a signed 32-bit integer; on
decode failure (for example text exceeding the i32 range) the parser reports a
fatal error carrying the offending text and terminates with exit status 1 in
every build configuration (`parse_num` calls `process::exit(1)` directly,
bypassing the build-dependent `exit_failure!`), rather than returning a
recoverable parse error. -/
theorem c8_num_decode_fatal :
    (∀ (t : Token) (rest : List Token) (v : Int), t.kind = .num →
      i32OfStr t.data = some v → expect_read (t :: rest) = .ok (.num v, rest)) ∧
    (∀ (buf : List Expr) (t : Token) (rest : List Token), t.kind = .num →
      i32OfStr t.data = none →
      parse_expr buf (t :: rest) = .error (.numErr t.data) ∧
      (∀ debugBuild, haltMode debugBuild (.numErr t.data) = .exitOne) ∧
      ∃ pre suf, errMsg (.numErr t.data) = pre ++ t.data ++ suf) := by
  constructor
  · intro t rest v hk hv
    obtain ⟨tk, td, tl⟩ := t
    simp only at hk
    subst hk
    simp only at hv
    simp [expect_read, expect_next, readOperandTok, parse_num, hv]
  · intro buf t rest hk hv
    obtain ⟨tk, td, tl⟩ := t
    simp only at hk
    subst hk
    simp only at hv
    refine ⟨?_, fun _ => rfl, "ERROR: parser: could not parse num `", "`", rfl⟩
    simp [parse_expr, expect_read, expect_next, readOperandTok, parse_num, hv]

/-- Witness for C8: `1` decodes; `2147483648` (`i32::MAX + 1`) is a fatal
exit-1 error in both build configurations. -/
theorem c8_witness :
    expect_read [⟨TokenKind.num, "1", 0⟩] = .ok (Expr.num 1, []) ∧
    (parse_expr [] [⟨TokenKind.num, "2147483648", 0⟩]
        = .error (.numErr "2147483648") ∧
      (∀ debugBuild, haltMode debugBuild (.numErr "2147483648") = .exitOne) ∧
      ∃ pre suf, errMsg (.numErr "2147483648") = pre ++ "2147483648" ++ suf) :=
  ⟨c8_num_decode_fatal.1 ⟨TokenKind.num, "1", 0⟩ [] 1 rfl rfl,
   c8_num_decode_fatal.2 [] ⟨TokenKind.num, "2147483648", 0⟩ [] rfl rfl⟩

/-- C9: an assignment missing the `=` after the target name, or the trailing `;`
after its expression, makes `parse` stop with a SyntaxError whose rendering is
`ERROR:<location>: SyntaxError: <message>`; no partial result is produced (the
embedding returns the error through `Except`, modelling immediate process
termination). -/
theorem c9_missing_punctuation :
    (∀ (nm t : Token) (rest : List Token), nm.kind = .name → t.kind ≠ .eq →
      parse (nm :: t :: rest)
        = .error (.stxErr (toString t.loc) ("Unexpected " ++ t.data)) ∧
      errMsg (.stxErr (toString t.loc) ("Unexpected " ++ t.data))
        = "ERROR:" ++ toString t.loc ++ ": SyntaxError: " ++ ("Unexpected " ++ t.data)) ∧
    (∀ (nm eqt : Token) (rest : List Token) (rng : Rng) (buf' : List Expr)
      (t' : Token) (rest' : List Token),
      nm.kind = .name → eqt.kind = .eq →
      parse_expr [] rest = .ok (rng, buf', t' :: rest') → t'.kind ≠ .semicolon →
      parse (nm :: eqt :: rest)
        = .error (.stxErr (toString t'.loc) ("Unexpected " ++ t'.data))) := by
  constructor
  · intro nm t rest hk ht
    obtain ⟨nk, nd, nl⟩ := nm
    simp only at hk
    subst hk
    refine ⟨?_, rfl⟩
    simp only [parse, List.length_cons, parseLoop]
    simp only [expect_specific_next]
    rw [if_neg ht]
  · intro nm eqt rest rng buf' t' rest' hk hke hpe ht
    obtain ⟨nk, nd, nl⟩ := nm
    simp only at hk
    subst hk
    obtain ⟨ek, ed, el⟩ := eqt
    simp only at hke
    subst hke
    simp only [parse, List.length_cons, parseLoop]
    simp only [expect_specific_next]
    simp only [if_true]
    rw [hpe]
    dsimp only
    rw [if_neg ht]

/-- Witness for C9: `a ;` (missing `=`) and `a = 1 =` (missing `;`). -/
theorem c9_witness :
    (parse [⟨TokenKind.name, "a", 0⟩, ⟨TokenKind.semicolon, ";", 2⟩]
        = .error (.stxErr (toString (2 : Nat)) ("Unexpected " ++ ";")) ∧
      errMsg (.stxErr (toString (2 : Nat)) ("Unexpected " ++ ";"))
        = "ERROR:" ++ toString (2 : Nat) ++ ": SyntaxError: " ++ ("Unexpected " ++ ";")) ∧
    parse [⟨TokenKind.name, "a", 0⟩, ⟨TokenKind.eq, "=", 2⟩, ⟨TokenKind.num, "1", 4⟩,
        ⟨TokenKind.eq, "=", 6⟩]
      = .error (.stxErr (toString (6 : Nat)) ("Unexpected " ++ "=")) :=
  ⟨c9_missing_punctuation.1 ⟨TokenKind.name, "a", 0⟩ ⟨TokenKind.semicolon, ";", 2⟩ []
      rfl (by decide),
   c9_missing_punctuation.2 ⟨TokenKind.name, "a", 0⟩ ⟨TokenKind.eq, "=", 2⟩
      [⟨TokenKind.num, "1", 4⟩, ⟨TokenKind.eq, "=", 6⟩] ⟨0, 1⟩ [Expr.num 1]
      ⟨TokenKind.eq, "=", 6⟩ [] rfl rfl rfl (by decide)⟩

/-- C10: whenever `parse_expr` returns normally, the token that terminated the
expression (the first peeked token not handled as an operator — e.g. Semicolon,
or Minus in the main loop) has not been consumed from the lexer: the next call
to the lexer yields exactly that token, and the remaining stream is a suffix of
the input. -/
theorem c10_terminator_not_consumed (buf : List Expr) (toks : List Token) (rng : Rng)
    (buf' : List Expr) (toks' : List Token)
    (h : parse_expr buf toks = .ok (rng, buf', toks')) :
    ∃ t rest, toks' = t :: rest ∧ lexNext toks' = some (t, rest) ∧
      t.kind ≠ .plus ∧ t.kind ≠ .star ∧ t.kind ≠ .slash ∧ toks'.IsSuffix toks := by
  obtain ⟨_, _, _, hsuf, _, t, rest, hts, h1, h2, h3⟩ := parse_expr_ok h
  exact ⟨t, rest, hts, by rw [hts]; rfl, h1, h2, h3, hsuf⟩

/-- Witness for C10 on `1 - 2 - 3 ;`, where the terminator is the Minus peeked
in the main loop. -/
theorem c10_witness :
    ∃ t rest, ([⟨TokenKind.minus, "-", 6⟩, ⟨TokenKind.num, "3", 8⟩,
        ⟨TokenKind.semicolon, ";", 9⟩] : List Token) = t :: rest ∧
      lexNext ([⟨TokenKind.minus, "-", 6⟩, ⟨TokenKind.num, "3", 8⟩,
        ⟨TokenKind.semicolon, ";", 9⟩] : List Token) = some (t, rest) ∧
      t.kind ≠ .plus ∧ t.kind ≠ .star ∧ t.kind ≠ .slash ∧
      List.IsSuffix ([⟨TokenKind.minus, "-", 6⟩, ⟨TokenKind.num, "3", 8⟩,
        ⟨TokenKind.semicolon, ";", 9⟩] : List Token)
        ([⟨TokenKind.num, "1", 0⟩, ⟨TokenKind.minus, "-", 2⟩, ⟨TokenKind.num, "2", 4⟩,
        ⟨TokenKind.minus, "-", 6⟩, ⟨TokenKind.num, "3", 8⟩,
        ⟨TokenKind.semicolon, ";", 9⟩] : List Token) :=
  c10_terminator_not_consumed []
    [⟨TokenKind.num, "1", 0⟩, ⟨TokenKind.minus, "-", 2⟩, ⟨TokenKind.num, "2", 4⟩,
      ⟨TokenKind.minus, "-", 6⟩, ⟨TokenKind.num, "3", 8⟩, ⟨TokenKind.semicolon, ";", 9⟩]
    ⟨0, 3⟩ [Expr.num 1, Expr.num 2, Expr.op OpKind.sub]
    [⟨TokenKind.minus, "-", 6⟩, ⟨TokenKind.num, "3", 8⟩, ⟨TokenKind.semicolon, ";", 9⟩] rfl

end Pmcs
